import Mathlib

/-!
Shallow embedding of `tools/generate_hole_normal.py`: a procedural generator of a
tangent-space normal map for a circular hole.  Python floats are modelled as real
numbers; the global random stream `random.random()` is modelled as an explicit
function `u : ℕ → ℝ` from draw indices to values, consumed two per pixel in
row-major order exactly as the source draws them.
-/

namespace HoleNormal

/-- An RGBA pixel as stored by `px[x, y] = (r, g, b, a)`. -/
structure RGBA where
  r : ℤ
  g : ℤ
  b : ℤ
  a : ℤ

/-- A 3-component vector of reals, the (vx, vy, vz) / (nx, ny, nz) triples. -/
structure Vec3 where
  x : ℝ
  y : ℝ
  z : ℝ

/-- Python `int()` applied to a float: truncation toward zero. -/
noncomputable def pyInt (r : ℝ) : ℤ := if r < 0 then ⌈r⌉ else ⌊r⌋

/-- `cx = cy = (size - 1) / 2.0`. -/
noncomputable def cmid (size : ℕ) : ℝ := ((size : ℝ) - 1) / 2

/-- `radius = min(cx, cy) * 0.95`. -/
noncomputable def radius (size : ℕ) : ℝ := min (cmid size) (cmid size) * 0.95

/-- `dx = (x - cx) / radius`. -/
noncomputable def dxN (size x : ℕ) : ℝ := ((x : ℝ) - cmid size) / radius size

/-- `dy = (y - cy) / radius`. -/
noncomputable def dyN (size y : ℕ) : ℝ := ((y : ℝ) - cmid size) / radius size

/-- `dist2 = dx*dx + dy*dy`. -/
noncomputable def dist2 (size x y : ℕ) : ℝ :=
  dxN size x * dxN size x + dyN size y * dyN size y

/-- `k = max(0.0, min(1.0, strength))`. -/
noncomputable def kclamp (strength : ℝ) : ℝ := max 0 (min 1 strength)

/-- `inner = max(0.0, 1.0 - math.pow(dist2, p) * k)` with `p = 1.5`;
the base `dist2` is a sum of squares, so `math.pow` agrees with `rpow`. -/
noncomputable def insideInner (size : ℕ) (k : ℝ) (x y : ℕ) : ℝ :=
  max 0 (1 - dist2 size x y ^ (1.5 : ℝ) * k)

/-- The raw inside-disc vector `(vx, vy, vz) = (dx*k, dy*k, dz)` with
`dz = math.sqrt(inner)`. -/
noncomputable def insideVec (size : ℕ) (k : ℝ) (x y : ℕ) : Vec3 :=
  ⟨dxN size x * k, dyN size y * k, Real.sqrt (insideInner size k x y)⟩

/-- `vx*vx + vy*vy + vz*vz`. -/
noncomputable def sumSq (v : Vec3) : ℝ := v.x * v.x + v.y * v.y + v.z * v.z

/-- `vlen = math.sqrt(vx*vx + vy*vy + vz*vz)`. -/
noncomputable def vlen3 (v : Vec3) : ℝ := Real.sqrt (sumSq v)

/-- `if vlen > 1e-6: vx /= vlen; vy /= vlen; vz /= vlen` — the guard-and-divide
pattern that the source uses twice (before and after noise injection). -/
noncomputable def normalize3 (v : Vec3) : Vec3 :=
  if vlen3 v > 1e-6 then ⟨v.x / vlen3 v, v.y / vlen3 v, v.z / vlen3 v⟩ else v

/-- The per-pixel pre-noise vector: the inside-disc branch (`dist2 <= 1.0`)
computes and conditionally normalizes `insideVec`; the outside branch yields
`(0.0, 0.0, 1.0)`. -/
noncomputable def pixelVecRaw (size : ℕ) (strength : ℝ) (x y : ℕ) : Vec3 :=
  if dist2 size x y ≤ 1 then normalize3 (insideVec size (kclamp strength) x y)
  else ⟨0, 0, 1⟩

/-- `nx = vx + (random.random() - 0.5) * noise_scale` (and same for `ny`);
`nz = vz`.  `u1`, `u2` are the two draws consumed for this pixel. -/
noncomputable def afterNoise (v : Vec3) (noise_scale u1 u2 : ℝ) : Vec3 :=
  ⟨v.x + (u1 - 0.5) * noise_scale, v.y + (u2 - 0.5) * noise_scale, v.z⟩

/-- `r = int((nx * 0.5 + 0.5) * 255)` and same for g, b; `a = 255`. -/
noncomputable def encode (n : Vec3) : RGBA :=
  ⟨pyInt ((n.x * 0.5 + 0.5) * 255), pyInt ((n.y * 0.5 + 0.5) * 255),
   pyInt ((n.z * 0.5 + 0.5) * 255), 255⟩

/-- Index of the first random draw consumed for pixel (x, y): the loops run
`for y in range(h): for x in range(w):` and each body makes two draws. -/
def drawIdx (size x y : ℕ) : ℕ := 2 * (y * size + x)

/-- The final per-pixel normal vector: pre-noise vector, noise injection, then
the second guarded normalization. -/
noncomputable def finalVec (size : ℕ) (strength noise_scale : ℝ) (u : ℕ → ℝ)
    (x y : ℕ) : Vec3 :=
  normalize3 (afterNoise (pixelVecRaw size strength x y) noise_scale
    (u (drawIdx size x y)) (u (drawIdx size x y + 1)))

/-- The RGBA quadruple stored at (x, y). -/
noncomputable def pixel (size : ℕ) (strength noise_scale : ℝ) (u : ℕ → ℝ)
    (x y : ℕ) : RGBA :=
  encode (finalVec size strength noise_scale u x y)

/-- The returned image: a size × size grid of RGBA pixels. -/
structure Canvas where
  width : ℕ
  height : ℕ
  data : ℕ → ℕ → RGBA

open Classical in
/-- `generate_normal_map(size, strength, noise_scale)`.  When the pixel loop
body runs with `radius = 0.0` (which happens exactly for `size = 1`, since
`cx = cy = 0.0`), Python raises ZeroDivisionError at `dx = (x - cx) / radius`;
that is modelled as `none`.  Otherwise the fully populated canvas is returned. -/
noncomputable def generate_normal_map (size : ℕ) (strength noise_scale : ℝ)
    (u : ℕ → ℝ) : Option Canvas :=
  if 0 < size ∧ radius size = 0 then none
  else some ⟨size, size, fun x y => pixel size strength noise_scale u x y⟩

/-- Decoding a stored channel back to a normal component: `v = (c/255)*2 - 1`. -/
noncomputable def decodeChan (c : ℤ) : ℝ := ((c : ℝ) / 255) * 2 - 1

/-- Squared magnitude of the vector decoded from the stored RGB channels. -/
noncomputable def decMagSq (p : RGBA) : ℝ :=
  decodeChan p.r ^ 2 + decodeChan p.g ^ 2 + decodeChan p.b ^ 2

theorem sumSq_nonneg (v : Vec3) : 0 ≤ sumSq v :=
  add_nonneg (add_nonneg (mul_self_nonneg _) (mul_self_nonneg _)) (mul_self_nonneg _)

theorem vlen3_nonneg (v : Vec3) : 0 ≤ vlen3 v := Real.sqrt_nonneg _

theorem vlen3_sq (v : Vec3) : vlen3 v ^ 2 = sumSq v := Real.sq_sqrt (sumSq_nonneg v)

theorem abs_le_vlen3 (v : Vec3) :
    |v.x| ≤ vlen3 v ∧ |v.y| ≤ vlen3 v ∧ |v.z| ≤ vlen3 v := by
  refine ⟨?_, ?_, ?_⟩ <;>
  · rw [← Real.sqrt_sq_eq_abs]
    apply Real.sqrt_le_sqrt
    unfold sumSq
    nlinarith [mul_self_nonneg v.x, mul_self_nonneg v.y, mul_self_nonneg v.z]

theorem normalize3_abs_le_one (v : Vec3) :
    |(normalize3 v).x| ≤ 1 ∧ |(normalize3 v).y| ≤ 1 ∧ |(normalize3 v).z| ≤ 1 := by
  obtain ⟨hx, hy, hz⟩ := abs_le_vlen3 v
  unfold normalize3
  split
  case isTrue h =>
    have hpos : 0 < vlen3 v := lt_trans (by norm_num) h
    refine ⟨?_, ?_, ?_⟩ <;>
    · simp only
      rw [abs_div, abs_of_pos hpos]
      apply div_le_one_of_le _ (le_of_lt hpos)
      assumption
  case isFalse h =>
    have hle : vlen3 v ≤ 1e-6 := not_lt.mp h
    exact ⟨by linarith, by linarith, by linarith⟩

theorem sumSq_normalize3 {v : Vec3} (h : 1e-6 < vlen3 v) :
    sumSq (normalize3 v) = 1 := by
  have hpos : 0 < vlen3 v := lt_trans (by norm_num) h
  have hsq := vlen3_sq v
  unfold normalize3
  rw [if_pos h]
  unfold sumSq at hsq ⊢
  field_simp
  nlinarith [hsq]

theorem normalize3_of_sumSq_one {v : Vec3} (h : sumSq v = 1) : normalize3 v = v := by
  have hv : vlen3 v = 1 := by rw [vlen3, h, Real.sqrt_one]
  unfold normalize3
  rw [hv, if_pos (by norm_num : (1 : ℝ) > 1e-6)]
  simp

theorem afterNoise_zero (v : Vec3) (u1 u2 : ℝ) : afterNoise v 0 u1 u2 = v := by
  unfold afterNoise
  simp

theorem pyInt_of_nonneg {r : ℝ} (h : 0 ≤ r) : pyInt r = ⌊r⌋ := by
  unfold pyInt
  rw [if_neg (not_lt.mpr h)]

theorem pyInt_range {r : ℝ} (h0 : 0 ≤ r) (h1 : r ≤ 255) :
    0 ≤ pyInt r ∧ pyInt r ≤ 255 := by
  rw [pyInt_of_nonneg h0]
  refine ⟨Int.le_floor.mpr (by exact_mod_cast h0), ?_⟩
  have h2 : ((⌊r⌋ : ℝ)) ≤ 255 := le_trans (Int.floor_le r) h1
  exact_mod_cast h2

theorem rpow_three_halves {a : ℝ} (ha : 0 ≤ a) :
    a ^ (1.5 : ℝ) = a * Real.sqrt a := by
  rcases eq_or_lt_of_le ha with h | h
  · rw [← h, Real.zero_rpow (by norm_num), Real.sqrt_zero, mul_zero]
  · have h15 : (1.5 : ℝ) = 1 + 1 / 2 := by norm_num
    rw [h15, Real.rpow_add h, Real.rpow_one, Real.sqrt_eq_rpow]

theorem kclamp_nonneg (s : ℝ) : 0 ≤ kclamp s := le_max_left _ _

theorem kclamp_le_one (s : ℝ) : kclamp s ≤ 1 := max_le zero_le_one (min_le_left _ _)

theorem dist2_nonneg (size x y : ℕ) : 0 ≤ dist2 size x y :=
  add_nonneg (mul_self_nonneg _) (mul_self_nonneg _)

theorem floor_127_5 : ⌊(127.5 : ℝ)⌋ = 127 := by
  rw [Int.floor_eq_iff] <;> norm_num

theorem floor_255 : ⌊(255 : ℝ)⌋ = 255 := by
  rw [Int.floor_eq_iff] <;> norm_num

theorem encode_001 : encode ⟨0, 0, 1⟩ = ⟨127, 127, 255, 255⟩ := by
  have hx : (((0 : ℝ)) * 0.5 + 0.5) * 255 = 127.5 := by norm_num
  have hz : (((1 : ℝ)) * 0.5 + 0.5) * 255 = 255 := by norm_num
  unfold encode
  simp only [hx, hz, pyInt_of_nonneg (by norm_num : (0:ℝ) ≤ 127.5),
    pyInt_of_nonneg (by norm_num : (0:ℝ) ≤ (255:ℝ)), floor_127_5, floor_255]

/-- C3: outside the hole disc (`dist2 > 1.0`) the pre-noise vector is exactly
(0, 0, 1), and with `noiseScale = 0` the stored channels at such a pixel are the
flat-normal encoding: R = 127, G = 127, B = 255 (and A = 255). -/
theorem outside_disc_flat (size : ℕ) (strength : ℝ) (u : ℕ → ℝ) (x y : ℕ)
    (h : 1 < dist2 size x y) :
    pixelVecRaw size strength x y = ⟨0, 0, 1⟩ ∧
    pixel size strength 0 u x y = ⟨127, 127, 255, 255⟩ := by
  have hraw : pixelVecRaw size strength x y = ⟨0, 0, 1⟩ := by
    unfold pixelVecRaw
    rw [if_neg (not_le.mpr h)]
  refine ⟨hraw, ?_⟩
  unfold pixel finalVec
  rw [hraw, afterNoise_zero,
    normalize3_of_sumSq_one (by unfold sumSq; norm_num), encode_001]

theorem outside_disc_flat_witness :
    1 < dist2 2 0 0 ∧
    (pixelVecRaw 2 0.6 0 0 = ⟨0, 0, 1⟩ ∧
     pixel 2 0.6 0 (fun _ => 0) 0 0 = ⟨127, 127, 255, 255⟩) :=
  ⟨by norm_num [dist2, dxN, dyN, cmid, radius, min_self],
   outside_disc_flat 2 0.6 (fun _ => 0) 0 0
     (by norm_num [dist2, dxN, dyN, cmid, radius, min_self])⟩

/-- C4: `strength` is clamped to [0, 1] before any use, so a call with
strength 1.5 produces output identical to a call with strength 1.0, for every
size and noise scale (and the same random stream). -/
theorem strength_clamp_equiv (size : ℕ) (noise_scale : ℝ) (u : ℕ → ℝ) :
    generate_normal_map size 1.5 noise_scale u =
    generate_normal_map size 1.0 noise_scale u := by
  have hk : kclamp 1.5 = kclamp 1.0 := by
    unfold kclamp
    rw [min_eq_left (by norm_num : (1:ℝ) ≤ 1.5), min_eq_left (by norm_num : (1:ℝ) ≤ 1.0)]
  have hpix : ∀ x y : ℕ, pixelVecRaw size 1.5 x y = pixelVecRaw size 1.0 x y := by
    intro x y
    unfold pixelVecRaw
    rw [hk]
  unfold generate_normal_map
  split
  · rfl
  · have hdata : (fun x y : ℕ => pixel size 1.5 noise_scale u x y) =
        (fun x y : ℕ => pixel size 1.0 noise_scale u x y) := by
      funext x y
      unfold pixel finalVec
      rw [hpix]
    rw [hdata]

/-- C5: with `noiseScale = 0` the canvas is a deterministic function of size and
strength: any two random streams give identical output, because the noise term
`(random() - 0.5) * 0` vanishes. -/
theorem no_noise_deterministic (size : ℕ) (strength : ℝ) (u v : ℕ → ℝ) :
    generate_normal_map size strength 0 u =
    generate_normal_map size strength 0 v := by
  unfold generate_normal_map
  split
  · rfl
  · have hdata : (fun x y : ℕ => pixel size strength 0 u x y) =
        (fun x y : ℕ => pixel size strength 0 v x y) := by
      funext x y
      unfold pixel finalVec
      rw [afterNoise_zero, afterNoise_zero]
    rw [hdata]

/-- C7: at a pixel with `dx = dy = 0` (the exact center), `dist2 = 0`, so
`inner = 1`, `dz = 1`, the raw pre-noise vector is (0, 0, 1), and with
`noiseScale = 0` the stored channels are the flat-normal encoding. -/
theorem center_pixel_flat (size : ℕ) (strength : ℝ) (u : ℕ → ℝ) (x y : ℕ)
    (hx : (x : ℝ) = cmid size) (hy : (y : ℝ) = cmid size) :
    dist2 size x y = 0 ∧
    insideInner size (kclamp strength) x y = 1 ∧
    Real.sqrt (insideInner size (kclamp strength) x y) = 1 ∧
    insideVec size (kclamp strength) x y = ⟨0, 0, 1⟩ ∧
    pixel size strength 0 u x y = ⟨127, 127, 255, 255⟩ := by
  have hdx : dxN size x = 0 := by unfold dxN; rw [hx, sub_self, zero_div]
  have hdy : dyN size y = 0 := by unfold dyN; rw [hy, sub_self, zero_div]
  have hd : dist2 size x y = 0 := by unfold dist2; rw [hdx, hdy]; ring
  have hin : insideInner size (kclamp strength) x y = 1 := by
    unfold insideInner
    rw [hd, Real.zero_rpow (by norm_num : (1.5:ℝ) ≠ 0), zero_mul, sub_zero]
    exact max_eq_right zero_le_one
  have hdz : Real.sqrt (insideInner size (kclamp strength) x y) = 1 := by
    rw [hin, Real.sqrt_one]
  have hvec : insideVec size (kclamp strength) x y = ⟨0, 0, 1⟩ := by
    unfold insideVec
    rw [hdx, hdy, hdz, zero_mul]
  refine ⟨hd, hin, hdz, hvec, ?_⟩
  have hraw : pixelVecRaw size strength x y = ⟨0, 0, 1⟩ := by
    unfold pixelVecRaw
    rw [if_pos (by rw [hd]; norm_num : dist2 size x y ≤ 1), hvec,
      normalize3_of_sumSq_one (by unfold sumSq; norm_num)]
  unfold pixel finalVec
  rw [hraw, afterNoise_zero,
    normalize3_of_sumSq_one (by unfold sumSq; norm_num), encode_001]

theorem center_pixel_flat_witness :
    ((1 : ℕ) : ℝ) = cmid 3 ∧
    (dist2 3 1 1 = 0 ∧
     insideInner 3 (kclamp 0.6) 1 1 = 1 ∧
     Real.sqrt (insideInner 3 (kclamp 0.6) 1 1) = 1 ∧
     insideVec 3 (kclamp 0.6) 1 1 = ⟨0, 0, 1⟩ ∧
     pixel 3 0.6 0 (fun _ => 0) 1 1 = ⟨127, 127, 255, 255⟩) :=
  ⟨by norm_num [cmid],
   center_pixel_flat 3 0.6 (fun _ => 0) 1 1 (by norm_num [cmid]) (by norm_num [cmid])⟩

/-- C10: for every inside-disc pixel (`dist2 ≤ 1`) and every strength, the
pre-normalization squared length equals `k² · dist2 + max(0, 1 - dist2^1.5 · k)`
and is at least 3/4, so `vlen > 1e-6` always holds and the first normalization
is performed: the skip-normalization guard is unreachable. -/
theorem inside_guard_unreachable (size : ℕ) (strength : ℝ) (x y : ℕ)
    (h : dist2 size x y ≤ 1) :
    sumSq (insideVec size (kclamp strength) x y) =
      kclamp strength ^ 2 * dist2 size x y +
        insideInner size (kclamp strength) x y ∧
    3 / 4 ≤ sumSq (insideVec size (kclamp strength) x y) ∧
    1e-6 < vlen3 (insideVec size (kclamp strength) x y) ∧
    pixelVecRaw size strength x y =
      ⟨(insideVec size (kclamp strength) x y).x /
         vlen3 (insideVec size (kclamp strength) x y),
       (insideVec size (kclamp strength) x y).y /
         vlen3 (insideVec size (kclamp strength) x y),
       (insideVec size (kclamp strength) x y).z /
         vlen3 (insideVec size (kclamp strength) x y)⟩ := by
  have ht0 : 0 ≤ dist2 size x y := dist2_nonneg size x y
  have hk0 : 0 ≤ kclamp strength := kclamp_nonneg strength
  have hk1 : kclamp strength ≤ 1 := kclamp_le_one strength
  have hin0 : 0 ≤ insideInner size (kclamp strength) x y := by
    unfold insideInner
    exact le_max_left _ _
  have hpow : dist2 size x y ^ (1.5:ℝ) * kclamp strength ≤
      dist2 size x y * kclamp strength := by
    rw [rpow_three_halves ht0]
    have hs1 : Real.sqrt (dist2 size x y) ≤ 1 := Real.sqrt_le_one.mpr h
    have hs0 : 0 ≤ Real.sqrt (dist2 size x y) := Real.sqrt_nonneg _
    nlinarith [mul_nonneg ht0 hk0]
  have hin_ge : 1 - dist2 size x y * kclamp strength ≤
      insideInner size (kclamp strength) x y := by
    unfold insideInner
    exact le_trans (by linarith) (le_max_right _ _)
  have hsum : sumSq (insideVec size (kclamp strength) x y) =
      kclamp strength ^ 2 * dist2 size x y +
        insideInner size (kclamp strength) x y := by
    show (dxN size x * kclamp strength) * (dxN size x * kclamp strength) +
        (dyN size y * kclamp strength) * (dyN size y * kclamp strength) +
        Real.sqrt (insideInner size (kclamp strength) x y) *
          Real.sqrt (insideInner size (kclamp strength) x y) =
      kclamp strength ^ 2 * dist2 size x y +
        insideInner size (kclamp strength) x y
    rw [Real.mul_self_sqrt hin0]
    unfold dist2
    ring
  have h34 : 3 / 4 ≤ sumSq (insideVec size (kclamp strength) x y) := by
    rw [hsum]
    nlinarith [hin_ge, ht0, h, hk0, hk1, sq_nonneg (2 * kclamp strength - 1)]
  have hv : 1e-6 < vlen3 (insideVec size (kclamp strength) x y) := by
    by_contra hc
    push_neg at hc
    have hnn := vlen3_nonneg (insideVec size (kclamp strength) x y)
    have hsq := vlen3_sq (insideVec size (kclamp strength) x y)
    nlinarith [h34]
  refine ⟨hsum, h34, hv, ?_⟩
  unfold pixelVecRaw
  rw [if_pos h]
  unfold normalize3
  rw [if_pos hv]

theorem inside_guard_unreachable_witness :
    dist2 3 1 1 ≤ 1 ∧
    (sumSq (insideVec 3 (kclamp 0.6) 1 1) =
       kclamp 0.6 ^ 2 * dist2 3 1 1 + insideInner 3 (kclamp 0.6) 1 1 ∧
     3 / 4 ≤ sumSq (insideVec 3 (kclamp 0.6) 1 1) ∧
     1e-6 < vlen3 (insideVec 3 (kclamp 0.6) 1 1) ∧
     pixelVecRaw 3 0.6 1 1 =
       ⟨(insideVec 3 (kclamp 0.6) 1 1).x / vlen3 (insideVec 3 (kclamp 0.6) 1 1),
        (insideVec 3 (kclamp 0.6) 1 1).y / vlen3 (insideVec 3 (kclamp 0.6) 1 1),
        (insideVec 3 (kclamp 0.6) 1 1).z / vlen3 (insideVec 3 (kclamp 0.6) 1 1)⟩) :=
  ⟨by norm_num [dist2, dxN, dyN, cmid, radius, min_self],
   inside_guard_unreachable 3 0.6 1 1
     (by norm_num [dist2, dxN, dyN, cmid, radius, min_self])⟩

/-- C9 counterexample: with `size = 1` the center is `cx = cy = 0`, so
`radius = 0` and the very first pixel raises ZeroDivisionError — no canvas is
returned, refuting "for every positive integer size". -/
theorem generate_size_one_none :
    generate_normal_map 1 0.6 0.02 (fun _ => 0) = none := by
  have hc : 0 < 1 ∧ radius 1 = 0 :=
    ⟨by norm_num, by norm_num [radius, cmid, min_self]⟩
  unfold generate_normal_map
  rw [if_pos hc]

/-- C9 (amended to sizes ≥ 2, forced by the `size = 1` ZeroDivisionError): the
returned canvas has width and height equal to `size` and every stored pixel has
alpha exactly 255. -/
theorem canvas_dims_alpha (size : ℕ) (strength noise_scale : ℝ) (u : ℕ → ℝ)
    (h : 2 ≤ size) :
    ∃ c : Canvas, generate_normal_map size strength noise_scale u = some c ∧
      c.width = size ∧ c.height = size ∧ ∀ x y : ℕ, (c.data x y).a = 255 := by
  have hsr : (2:ℝ) ≤ (size:ℝ) := by exact_mod_cast h
  have hrad : radius size ≠ 0 := by
    unfold radius cmid
    rw [min_self]
    have hpos : (0:ℝ) < ((size:ℝ) - 1) / 2 * 0.95 := by nlinarith
    exact ne_of_gt hpos
  have hc : ¬(0 < size ∧ radius size = 0) := by
    rintro ⟨_, h0⟩
    exact hrad h0
  unfold generate_normal_map
  rw [if_neg hc]
  exact ⟨_, rfl, rfl, rfl, fun x y => rfl⟩

theorem floor_128 : ⌊(128 : ℝ)⌋ = 128 := by
  rw [Int.floor_eq_iff]
  norm_num

theorem round_127_5 : round (127.5 : ℝ) = 128 := by
  rw [round_eq, show (127.5:ℝ) + 1/2 = 128 by norm_num, floor_128]

/-- C1 counterexample: at the size-2 pixel (0, 0) (outside the disc, final
normal (0, 0, 1)) the stored R channel is `int(127.5) = 127`, not
`round(127.5) = 128`: the source truncates with `int()`, it does not round. -/
theorem encode_round_counterexample :
    (pixel 2 0.6 0 (fun _ => 0) 0 0).r ≠
      round (((finalVec 2 0.6 0 (fun _ => 0) 0 0).x * 0.5 + 0.5) * 255) := by
  have hd : 1 < dist2 2 0 0 := by
    norm_num [dist2, dxN, dyN, cmid, radius, min_self]
  have hraw : pixelVecRaw 2 0.6 0 0 = ⟨0, 0, 1⟩ := by
    unfold pixelVecRaw
    rw [if_neg (not_le.mpr hd)]
  have hfin : finalVec 2 0.6 0 (fun _ => 0) 0 0 = ⟨0, 0, 1⟩ := by
    unfold finalVec
    rw [hraw, afterNoise_zero, normalize3_of_sumSq_one (by unfold sumSq; norm_num)]
  have hfx : (finalVec 2 0.6 0 (fun _ => 0) 0 0).x = 0 := by rw [hfin]
  have hpr : (pixel 2 0.6 0 (fun _ => 0) 0 0).r = 127 := by
    unfold pixel
    rw [hfin, encode_001]
  rw [hpr, hfx, show ((0:ℝ) * 0.5 + 0.5) * 255 = 127.5 by norm_num, round_127_5]
  norm_num

/-- C1 (amended: the source applies `int()`, truncation toward zero — here
equal to `⌊·⌋` because the encoded value is nonnegative — not rounding): every
stored channel is the floor of `(n_i * 0.5 + 0.5) * 255` of the final normal
vector, and A = 255. -/
theorem encode_is_floor (size : ℕ) (strength noise_scale : ℝ) (u : ℕ → ℝ)
    (x y : ℕ) :
    pixel size strength noise_scale u x y =
      ⟨⌊((finalVec size strength noise_scale u x y).x * 0.5 + 0.5) * 255⌋,
       ⌊((finalVec size strength noise_scale u x y).y * 0.5 + 0.5) * 255⌋,
       ⌊((finalVec size strength noise_scale u x y).z * 0.5 + 0.5) * 255⌋,
       255⟩ := by
  obtain ⟨hx, hy, hz⟩ := normalize3_abs_le_one
    (afterNoise (pixelVecRaw size strength x y) noise_scale
      (u (drawIdx size x y)) (u (drawIdx size x y + 1)))
  have e : normalize3 (afterNoise (pixelVecRaw size strength x y) noise_scale
      (u (drawIdx size x y)) (u (drawIdx size x y + 1))) =
      finalVec size strength noise_scale u x y := rfl
  rw [e] at hx hy hz
  have hx1 := (abs_le.mp hx).1
  have hy1 := (abs_le.mp hy).1
  have hz1 := (abs_le.mp hz).1
  unfold pixel encode
  rw [pyInt_of_nonneg (by nlinarith : (0:ℝ) ≤
        ((finalVec size strength noise_scale u x y).x * 0.5 + 0.5) * 255),
      pyInt_of_nonneg (by nlinarith : (0:ℝ) ≤
        ((finalVec size strength noise_scale u x y).y * 0.5 + 0.5) * 255),
      pyInt_of_nonneg (by nlinarith : (0:ℝ) ≤
        ((finalVec size strength noise_scale u x y).z * 0.5 + 0.5) * 255)]

/-- C6: inside or outside the disc alike, the noise step adds
`(random() - 0.5) * noiseScale` — a value of magnitude at most `noiseScale / 2`
when the draw lies in [0, 1] — to the x and y components only, and the z
component passes through unchanged. -/
theorem noise_step_shape (size : ℕ) (strength noise_scale : ℝ) (u : ℕ → ℝ)
    (x y : ℕ) (hns : 0 ≤ noise_scale) (hu : ∀ n, 0 ≤ u n ∧ u n ≤ 1) :
    pixel size strength noise_scale u x y =
      encode (normalize3 (afterNoise (pixelVecRaw size strength x y) noise_scale
        (u (drawIdx size x y)) (u (drawIdx size x y + 1)))) ∧
    (afterNoise (pixelVecRaw size strength x y) noise_scale
        (u (drawIdx size x y)) (u (drawIdx size x y + 1))).z =
      (pixelVecRaw size strength x y).z ∧
    ∃ e1 e2 : ℝ, |e1| ≤ noise_scale / 2 ∧ |e2| ≤ noise_scale / 2 ∧
      afterNoise (pixelVecRaw size strength x y) noise_scale
          (u (drawIdx size x y)) (u (drawIdx size x y + 1)) =
        ⟨(pixelVecRaw size strength x y).x + e1,
         (pixelVecRaw size strength x y).y + e2,
         (pixelVecRaw size strength x y).z⟩ := by
  refine ⟨rfl, rfl, (u (drawIdx size x y) - 0.5) * noise_scale,
    (u (drawIdx size x y + 1) - 0.5) * noise_scale, ?_, ?_, rfl⟩
  · obtain ⟨h0, h1⟩ := hu (drawIdx size x y)
    rw [abs_mul, abs_of_nonneg hns]
    have habs : |u (drawIdx size x y) - 0.5| ≤ 1/2 :=
      abs_le.mpr ⟨by linarith, by linarith⟩
    nlinarith [abs_nonneg (u (drawIdx size x y) - 0.5)]
  · obtain ⟨h0, h1⟩ := hu (drawIdx size x y + 1)
    rw [abs_mul, abs_of_nonneg hns]
    have habs : |u (drawIdx size x y + 1) - 0.5| ≤ 1/2 :=
      abs_le.mpr ⟨by linarith, by linarith⟩
    nlinarith [abs_nonneg (u (drawIdx size x y + 1) - 0.5)]

theorem noise_step_shape_witness :
    (0:ℝ) ≤ 0.02 ∧ (∀ n : ℕ, 0 ≤ (fun _ : ℕ => (0:ℝ)) n ∧ (fun _ : ℕ => (0:ℝ)) n ≤ 1) ∧
    (pixel 2 0.6 0.02 (fun _ => 0) 0 0 =
      encode (normalize3 (afterNoise (pixelVecRaw 2 0.6 0 0) 0.02
        ((fun _ : ℕ => (0:ℝ)) (drawIdx 2 0 0)) ((fun _ : ℕ => (0:ℝ)) (drawIdx 2 0 0 + 1)))) ∧
     (afterNoise (pixelVecRaw 2 0.6 0 0) 0.02
        ((fun _ : ℕ => (0:ℝ)) (drawIdx 2 0 0)) ((fun _ : ℕ => (0:ℝ)) (drawIdx 2 0 0 + 1))).z =
       (pixelVecRaw 2 0.6 0 0).z ∧
     ∃ e1 e2 : ℝ, |e1| ≤ 0.02 / 2 ∧ |e2| ≤ 0.02 / 2 ∧
       afterNoise (pixelVecRaw 2 0.6 0 0) 0.02
           ((fun _ : ℕ => (0:ℝ)) (drawIdx 2 0 0)) ((fun _ : ℕ => (0:ℝ)) (drawIdx 2 0 0 + 1)) =
         ⟨(pixelVecRaw 2 0.6 0 0).x + e1, (pixelVecRaw 2 0.6 0 0).y + e2,
          (pixelVecRaw 2 0.6 0 0).z⟩) :=
  ⟨by norm_num, fun n => by norm_num,
   noise_step_shape 2 0.6 0.02 (fun _ => 0) 0 0 (by norm_num) (fun n => by norm_num)⟩

theorem decodeChan_range {c : ℤ} (h0 : 0 ≤ c) (h1 : c ≤ 255) :
    -1 ≤ decodeChan c ∧ decodeChan c ≤ 1 := by
  have h0r : (0:ℝ) ≤ (c:ℝ) := by exact_mod_cast h0
  have h1r : ((c:ℝ)) ≤ 255 := by exact_mod_cast h1
  unfold decodeChan
  constructor
  · linarith
  · linarith

theorem encode_range (n : Vec3) (hx : |n.x| ≤ 1) (hy : |n.y| ≤ 1)
    (hz : |n.z| ≤ 1) :
    (0 ≤ (encode n).r ∧ (encode n).r ≤ 255) ∧
    (0 ≤ (encode n).g ∧ (encode n).g ≤ 255) ∧
    (0 ≤ (encode n).b ∧ (encode n).b ≤ 255) := by
  have hx' := abs_le.mp hx
  have hy' := abs_le.mp hy
  have hz' := abs_le.mp hz
  exact ⟨pyInt_range (by nlinarith [hx'.1]) (by nlinarith [hx'.2]),
         pyInt_range (by nlinarith [hy'.1]) (by nlinarith [hy'.2]),
         pyInt_range (by nlinarith [hz'.1]) (by nlinarith [hz'.2])⟩

/-- C8: for every pixel and all inputs, the stored R, G, B values lie in
[0, 255] (the byte encoding never overflows), and equivalently the decoded
components `(c/255)*2 - 1` lie in [-1, 1]. -/
theorem stored_bytes_in_range (size : ℕ) (strength noise_scale : ℝ)
    (u : ℕ → ℝ) (x y : ℕ) :
    (0 ≤ (pixel size strength noise_scale u x y).r ∧
       (pixel size strength noise_scale u x y).r ≤ 255) ∧
    (0 ≤ (pixel size strength noise_scale u x y).g ∧
       (pixel size strength noise_scale u x y).g ≤ 255) ∧
    (0 ≤ (pixel size strength noise_scale u x y).b ∧
       (pixel size strength noise_scale u x y).b ≤ 255) ∧
    (-1 ≤ decodeChan (pixel size strength noise_scale u x y).r ∧
       decodeChan (pixel size strength noise_scale u x y).r ≤ 1) ∧
    (-1 ≤ decodeChan (pixel size strength noise_scale u x y).g ∧
       decodeChan (pixel size strength noise_scale u x y).g ≤ 1) ∧
    (-1 ≤ decodeChan (pixel size strength noise_scale u x y).b ∧
       decodeChan (pixel size strength noise_scale u x y).b ≤ 1) := by
  obtain ⟨hx, hy, hz⟩ := normalize3_abs_le_one
    (afterNoise (pixelVecRaw size strength x y) noise_scale
      (u (drawIdx size x y)) (u (drawIdx size x y + 1)))
  obtain ⟨hr, hg, hb⟩ := encode_range _ hx hy hz
  exact ⟨hr, hg, hb, decodeChan_range hr.1 hr.2, decodeChan_range hg.1 hg.2,
    decodeChan_range hb.1 hb.2⟩

theorem decodeChan_pyInt_close {a : ℝ} (ha : |a| ≤ 1) :
    decodeChan (pyInt ((a * 0.5 + 0.5) * 255)) ≤ a ∧
    a - 2 / 255 < decodeChan (pyInt ((a * 0.5 + 0.5) * 255)) := by
  have ha' := abs_le.mp ha
  have h0 : (0:ℝ) ≤ (a * 0.5 + 0.5) * 255 := by nlinarith [ha'.1]
  rw [pyInt_of_nonneg h0]
  unfold decodeChan
  have hfl := Int.floor_le ((a * 0.5 + 0.5) * 255)
  have hfg := Int.sub_one_lt_floor ((a * 0.5 + 0.5) * 255)
  constructor
  · linarith
  · linarith

theorem sq_dec_close {a A : ℝ} (h1 : A ≤ a) (h2 : a - 2 / 255 < A) :
    a ^ 2 - 4 / 255 * |a| ≤ A ^ 2 ∧
    A ^ 2 ≤ a ^ 2 + 4 / 255 * |a| + 4 / 65025 := by
  have hal := le_abs_self a
  have hε0 : 0 ≤ a - A := by linarith
  have hε2 : a - A < 2 / 255 := by linarith
  have p1 : (a - A) * |a| ≤ 2 / 255 * |a| :=
    mul_le_mul_of_nonneg_right (le_of_lt hε2) (abs_nonneg a)
  have p2 : (a - A) * (a - A) ≤ 2 / 255 * (2 / 255) := by nlinarith
  have p3 : a * (a - A) ≤ |a| * (a - A) := mul_le_mul_of_nonneg_right hal hε0
  have p4 : 0 ≤ (a + |a|) * (a - A) := mul_nonneg (by linarith [neg_abs_le a]) hε0
  constructor
  · nlinarith [sq_nonneg (a - A)]
  · nlinarith

set_option maxHeartbeats 800000 in
theorem decMag_close_of_unit (m : Vec3) (hunit : sumSq m = 1) :
    |Real.sqrt (decMagSq (encode m)) - 1| ≤ 0.014 := by
  have hu : m.x ^ 2 + m.y ^ 2 + m.z ^ 2 = 1 := by
    rw [← hunit]; unfold sumSq; ring
  have hax : |m.x| ≤ 1 := abs_le.mpr
    ⟨by nlinarith [sq_nonneg m.y, sq_nonneg m.z, sq_nonneg (m.x + 1)],
     by nlinarith [sq_nonneg m.y, sq_nonneg m.z, sq_nonneg (m.x - 1)]⟩
  have hay : |m.y| ≤ 1 := abs_le.mpr
    ⟨by nlinarith [sq_nonneg m.x, sq_nonneg m.z, sq_nonneg (m.y + 1)],
     by nlinarith [sq_nonneg m.x, sq_nonneg m.z, sq_nonneg (m.y - 1)]⟩
  have haz : |m.z| ≤ 1 := abs_le.mpr
    ⟨by nlinarith [sq_nonneg m.x, sq_nonneg m.y, sq_nonneg (m.z + 1)],
     by nlinarith [sq_nonneg m.x, sq_nonneg m.y, sq_nonneg (m.z - 1)]⟩
  obtain ⟨hA1, hA2⟩ := decodeChan_pyInt_close hax
  obtain ⟨hB1, hB2⟩ := decodeChan_pyInt_close hay
  obtain ⟨hC1, hC2⟩ := decodeChan_pyInt_close haz
  obtain ⟨hAl, hAu⟩ := sq_dec_close hA1 hA2
  obtain ⟨hBl, hBu⟩ := sq_dec_close hB1 hB2
  obtain ⟨hCl, hCu⟩ := sq_dec_close hC1 hC2
  have hS : |m.x| + |m.y| + |m.z| ≤ 1.7320509 := by
    have h3 : (|m.x| + |m.y| + |m.z|) ^ 2 ≤ 3 := by
      nlinarith [sq_nonneg (|m.x| - |m.y|), sq_nonneg (|m.x| - |m.z|),
        sq_nonneg (|m.y| - |m.z|), sq_abs m.x, sq_abs m.y, sq_abs m.z, hu]
    by_contra hc
    push_neg at hc
    have hprod : 0 < (|m.x| + |m.y| + |m.z| - 1.7320509) *
        (|m.x| + |m.y| + |m.z| + 1.7320509) :=
      mul_pos (by linarith) (by linarith)
    nlinarith [h3, hprod]
  have hdm : decMagSq (encode m) =
      decodeChan (pyInt ((m.x * 0.5 + 0.5) * 255)) ^ 2 +
      decodeChan (pyInt ((m.y * 0.5 + 0.5) * 255)) ^ 2 +
      decodeChan (pyInt ((m.z * 0.5 + 0.5) * 255)) ^ 2 := rfl
  have hup : decMagSq (encode m) ≤ 1.014 ^ 2 := by
    rw [hdm]
    linarith [hAu, hBu, hCu, hu, hS]
  have hlo : (0.986:ℝ) ^ 2 ≤ decMagSq (encode m) := by
    rw [hdm]
    linarith [hAl, hBl, hCl, hu, hS]
  have hsqu : Real.sqrt (decMagSq (encode m)) ≤ 1.014 := by
    have h1 := Real.sqrt_le_sqrt hup
    rwa [Real.sqrt_sq (by norm_num : (0:ℝ) ≤ 1.014)] at h1
  have hsql : (0.986:ℝ) ≤ Real.sqrt (decMagSq (encode m)) := by
    have h1 := Real.sqrt_le_sqrt hlo
    rwa [Real.sqrt_sq (by norm_num : (0:ℝ) ≤ 0.986)] at h1
  exact abs_le.mpr ⟨by linarith, by linarith⟩

set_option maxHeartbeats 800000 in
/-- C2 counterexample: at size 5, strength 0.7, noise 0, pixel (3, 3), the
stored bytes are (174, 174, 235) and the decoded magnitude is
√(63523/65025) ≈ 0.98838, which is NOT within ±0.01 of 1, although the
pre-noise vector magnitude (= 1) exceeds 1e-6. -/
theorem decoded_magnitude_tolerance_cex :
    1e-6 < vlen3 (pixelVecRaw 5 0.7 3 3) ∧
    pixel 5 0.7 0 (fun _ => 0) 3 3 = ⟨174, 174, 235, 255⟩ ∧
    ¬ |Real.sqrt (decMagSq (pixel 5 0.7 0 (fun _ => 0) 3 3)) - 1| ≤ 0.01 := by
  set s := Real.sqrt 2 with hs_def
  have hs0 : (0:ℝ) ≤ s := Real.sqrt_nonneg 2
  have hs2 : s ^ 2 = 2 := Real.sq_sqrt (by norm_num)
  have hslb : (1.41:ℝ) < s := by nlinarith [hs2, hs0]
  have hsub : s < 1.415 := by nlinarith [hs2, hs0]
  have hdx : dxN 5 3 = 10 / 19 := by norm_num [dxN, cmid, radius, min_self]
  have hdy : dyN 5 3 = 10 / 19 := by norm_num [dyN, cmid, radius, min_self]
  have hd2 : dist2 5 3 3 = 200 / 361 := by
    unfold dist2; rw [hdx, hdy]; norm_num
  have hk : kclamp 0.7 = 0.7 := by
    unfold kclamp
    rw [min_eq_right (by norm_num : (0.7:ℝ) ≤ 1), max_eq_right (by norm_num : (0:ℝ) ≤ 0.7)]
  have hsq200 : Real.sqrt (200 / 361) = 10 / 19 * s := by
    rw [hs_def, show (200 / 361 : ℝ) = (10 / 19) ^ 2 * 2 by norm_num,
      Real.sqrt_mul (by positivity) 2, Real.sqrt_sq (by norm_num : (0:ℝ) ≤ 10 / 19)]
  have hrp : (200 / 361 : ℝ) ^ (1.5 : ℝ) = 200 / 361 * (10 / 19 * s) := by
    rw [rpow_three_halves (by norm_num : (0:ℝ) ≤ 200 / 361), hsq200]
  have hinpos : (0:ℝ) ≤ 1 - 1400 / 6859 * s := by nlinarith [hsub, hs0]
  set d := Real.sqrt (1 - 1400 / 6859 * s) with hd_def
  have hdsq : d ^ 2 = 1 - 1400 / 6859 * s := Real.sq_sqrt hinpos
  have hdnn : 0 ≤ d := Real.sqrt_nonneg _
  have hin : insideInner 5 (kclamp 0.7) 3 3 = 1 - 1400 / 6859 * s := by
    unfold insideInner
    rw [hd2, hk, hrp]
    rw [show (1:ℝ) - 200 / 361 * (10 / 19 * s) * 0.7 = 1 - 1400 / 6859 * s by ring]
    exact max_eq_right hinpos
  have hvec : insideVec 5 (kclamp 0.7) 3 3 = ⟨7 / 19, 7 / 19, d⟩ := by
    unfold insideVec
    rw [hdx, hdy, hin, ← hd_def, hk]
    simp only [Vec3.mk.injEq]
    norm_num
  set L := vlen3 (⟨7 / 19, 7 / 19, d⟩ : Vec3) with hL_def
  have hss : sumSq (⟨7 / 19, 7 / 19, d⟩ : Vec3) = 459 / 361 - 1400 / 6859 * s := by
    show (7 / 19 : ℝ) * (7 / 19) + 7 / 19 * (7 / 19) + d * d =
      459 / 361 - 1400 / 6859 * s
    have hdd : d * d = 1 - 1400 / 6859 * s := by nlinarith [hdsq]
    rw [hdd]; ring
  have hL2 : L ^ 2 = 459 / 361 - 1400 / 6859 * s := by
    rw [hL_def, vlen3_sq, hss]
  have hL0 : 0 < L := by
    rw [hL_def]
    unfold vlen3
    rw [hss]
    exact Real.sqrt_pos.mpr (by nlinarith [hsub, hs0])
  have hgateL : (1e-6:ℝ) < L := by nlinarith [hL2, hL0, hsub]
  have hraw : pixelVecRaw 5 0.7 3 3 = normalize3 ⟨7 / 19, 7 / 19, d⟩ := by
    unfold pixelVecRaw
    rw [if_pos (by rw [hd2]; norm_num : dist2 5 3 3 ≤ 1), hvec]
  have hunit : sumSq (normalize3 (⟨7 / 19, 7 / 19, d⟩ : Vec3)) = 1 :=
    sumSq_normalize3 hgateL
  have hnorm : normalize3 (⟨7 / 19, 7 / 19, d⟩ : Vec3) =
      ⟨7 / 19 / L, 7 / 19 / L, d / L⟩ := by
    unfold normalize3
    rw [if_pos hgateL]
  have hpix : pixel 5 0.7 0 (fun _ => 0) 3 3 =
      encode ⟨7 / 19 / L, 7 / 19 / L, d / L⟩ := by
    unfold pixel finalVec
    rw [afterNoise_zero, hraw, normalize3_of_sumSq_one hunit, hnorm]
  have hL1 : L < 1 := by nlinarith [hL2, hL0, hslb]
  have hnx_lb : (31 / 85 : ℝ) ≤ 7 / 19 / L := by
    rw [le_div_iff hL0]
    nlinarith [hL1]
  have hnx_ub : (7 / 19 : ℝ) / L < 19 / 51 := by
    rw [div_lt_iff hL0]
    nlinarith [hL2, hL0, hsub]
  have hnz_lb : (43 / 51 : ℝ) ≤ d / L := by
    rw [le_div_iff hL0]
    nlinarith [hL2, hdsq, hL0, hdnn, hsub]
  have hnz_ub : d / L < 217 / 255 := by
    rw [div_lt_iff hL0]
    nlinarith [hL2, hdsq, hL0, hdnn, hslb]
  have hfr : pyInt ((7 / 19 / L * 0.5 + 0.5) * 255) = 174 := by
    rw [pyInt_of_nonneg (by nlinarith [hnx_lb] : (0:ℝ) ≤ (7 / 19 / L * 0.5 + 0.5) * 255),
      Int.floor_eq_iff]
    constructor
    · push_cast
      nlinarith [hnx_lb]
    · push_cast
      nlinarith [hnx_ub]
  have hfb : pyInt ((d / L * 0.5 + 0.5) * 255) = 235 := by
    rw [pyInt_of_nonneg (by nlinarith [hnz_lb] : (0:ℝ) ≤ (d / L * 0.5 + 0.5) * 255),
      Int.floor_eq_iff]
    constructor
    · push_cast
      nlinarith [hnz_lb]
    · push_cast
      nlinarith [hnz_ub]
  have hpixval : pixel 5 0.7 0 (fun _ => 0) 3 3 = ⟨174, 174, 235, 255⟩ := by
    rw [hpix]
    show RGBA.mk (pyInt ((7 / 19 / L * 0.5 + 0.5) * 255))
        (pyInt ((7 / 19 / L * 0.5 + 0.5) * 255))
        (pyInt ((d / L * 0.5 + 0.5) * 255)) 255 = RGBA.mk 174 174 235 255
    rw [hfr, hfb]
  refine ⟨?_, hpixval, ?_⟩
  · rw [hraw]
    have hv1 : vlen3 (normalize3 (⟨7 / 19, 7 / 19, d⟩ : Vec3)) = 1 := by
      unfold vlen3
      rw [hunit, Real.sqrt_one]
    rw [hv1]
    norm_num
  · rw [hpixval]
    have hval : decMagSq (⟨174, 174, 235, 255⟩ : RGBA) = 63523 / 65025 := by
      unfold decMagSq decodeChan
      norm_num
    rw [hval]
    intro habs
    have h1 : (0.99:ℝ) ≤ Real.sqrt (63523 / 65025) := by
      have := (abs_le.mp habs).1
      linarith
    have h2 : Real.sqrt (63523 / 65025) < 0.99 := by
      have h3 : Real.sqrt (63523 / 65025) < Real.sqrt (0.99 ^ 2) :=
        Real.sqrt_lt_sqrt (by norm_num) (by norm_num)
      rwa [Real.sqrt_sq (by norm_num : (0:ℝ) ≤ 0.99)] at h3
    linarith

/-- C2 (amended: tolerance ±0.014 instead of ±0.01, forced by the size-5
counterexample): with noise disabled, for every pixel whose pre-noise vector
magnitude exceeds 1e-6, the magnitude of the vector decoded from the stored
RGB lies within ±0.014 of 1. -/
theorem decoded_magnitude_tolerance (size : ℕ) (strength : ℝ) (u : ℕ → ℝ)
    (x y : ℕ) (h : 1e-6 < vlen3 (pixelVecRaw size strength x y)) :
    |Real.sqrt (decMagSq (pixel size strength 0 u x y)) - 1| ≤ 0.014 := by
  have hpx : pixel size strength 0 u x y =
      encode (normalize3 (pixelVecRaw size strength x y)) := by
    unfold pixel finalVec
    rw [afterNoise_zero]
  rw [hpx]
  exact decMag_close_of_unit _ (sumSq_normalize3 h)

theorem decoded_magnitude_tolerance_witness :
    1e-6 < vlen3 (pixelVecRaw 2 0.6 0 0) ∧
    |Real.sqrt (decMagSq (pixel 2 0.6 0 (fun _ => 0) 0 0)) - 1| ≤ 0.014 := by
  have hd : 1 < dist2 2 0 0 := by
    norm_num [dist2, dxN, dyN, cmid, radius, min_self]
  have hraw : pixelVecRaw 2 0.6 0 0 = ⟨0, 0, 1⟩ := by
    unfold pixelVecRaw
    rw [if_neg (not_le.mpr hd)]
  have hgate : 1e-6 < vlen3 (pixelVecRaw 2 0.6 0 0) := by
    rw [hraw]
    unfold vlen3 sumSq
    norm_num [Real.sqrt_one]
  exact ⟨hgate, decoded_magnitude_tolerance 2 0.6 (fun _ => 0) 0 0 hgate⟩

theorem canvas_dims_alpha_witness :
    2 ≤ 2 ∧
    ∃ c : Canvas, generate_normal_map 2 0.6 0.02 (fun _ => 0) = some c ∧
      c.width = 2 ∧ c.height = 2 ∧ ∀ x y : ℕ, (c.data x y).a = 255 :=
  ⟨le_refl 2, canvas_dims_alpha 2 0.6 0.02 (fun _ => 0) (le_refl 2)⟩

end HoleNormal
